import Mathlib

/-!
Shallow embedding of the iCalendar content-line folding module
(`src/contentline.rs`).

Strings are modelled as lists of bytes (`List Nat`, each entry < 256 for
meaningful inputs).  The `fmt::Write` sink of `fold` is modelled as a state
`s : σ` together with a write function `w : σ → List Nat → σ × Option E`
returning the new sink state and `some e` when the write fails (Rust's
`fmt::Error`, propagated by `?`).  The recursion of the `while` loop is
expressed with a fuel parameter equal to the byte length of the remaining
content; `next_boundary` returns at least 1 on non-empty input, so this
fuel is always sufficient and the embedding computes by `decide`.

UTF-8 text is modelled by `utf8Encode : Char → List Nat` (the standard
1-to-4 byte encoding); a Rust `&str` of characters `cs` is the byte list
`encodeList cs`.
-/

namespace Contentline

/-- Byte limit of a physical line: `pub const LIMIT: usize = 75`. -/
def LIMIT : Nat := 75

/-- The inserted break `"\r\n "`: carriage return, line feed, one space. -/
def LINE_BREAK : List Nat := [13, 10, 32]

/-- Cardinality of `usize` (the crate targets 64-bit platforms). -/
def USIZE : Nat := 18446744073709551616

/-- The predicate `next_boundary` scans for: `i < 128 || i >= 192`.
True exactly on bytes that are not UTF-8 continuation bytes. -/
def isCharStart (b : Nat) : Bool := decide (b < 128 ∨ 192 ≤ b)

/-- Index of the rightmost element satisfying `p` (Rust `Iterator::rposition`). -/
def rposition (p : Nat → Bool) : List Nat → Option Nat
  | [] => none
  | b :: bs =>
    match rposition p bs with
    | some i => some (i + 1)
    | none => if p b then some 0 else none

/-- `fn next_boundary(input: &str, limit: usize) -> usize` from the source:
if `limit >= input.len()` return the full length; otherwise scan
`input[..=limit]` from the right for a non-continuation byte, returning the
full length on `Some(0) | None` and the found index otherwise. -/
def next_boundary (input : List Nat) (limit : Nat) : Nat :=
  if input.length ≤ limit then input.length
  else
    match rposition isCharStart (input.take (limit + 1)) with
    | none => input.length
    | some 0 => input.length
    | some (index + 1) => index + 1

/-- The `while boundary < content.len()` loop of `fold`, with sink threading:
per iteration, write `LINE_BREAK`, compute the next boundary with
`LIMIT - 1`, write the segment up to it, and recurse on the rest.  The
fuel is ≥ the byte length of `content` at every call. -/
def foldLoopM {σ E : Type} (w : σ → List Nat → σ × Option E) :
    Nat → σ → List Nat → σ × Option E
  | 0, s, _ => (s, none)
  | fuel + 1, s, content =>
    if content = [] then (s, none)
    else
      match w s LINE_BREAK with
      | (s1, some e) => (s1, some e)
      | (s1, none) =>
        let nb := next_boundary content (LIMIT - 1)
        match w s1 (content.take nb) with
        | (s2, some e) => (s2, some e)
        | (s2, none) => foldLoopM w fuel s2 (content.drop nb)

/-- `pub fn fold<W: fmt::Write>(writer: &mut W, mut content: &str) -> fmt::Result`:
write the first segment (boundary computed with the full `LIMIT`), then run
the loop on the rest. -/
def foldM {σ E : Type} (w : σ → List Nat → σ × Option E) (s : σ)
    (content : List Nat) : σ × Option E :=
  let boundary := next_boundary content LIMIT
  match w s (content.take boundary) with
  | (s1, some e) => (s1, some e)
  | (s1, none) => foldLoopM w (content.drop boundary).length s1 (content.drop boundary)

/-- The byte sequence `fold` writes into an infallible accumulating sink
(the `String` writer used by the crate's tests). -/
def fold (content : List Nat) : List Nat :=
  (foldM (fun acc l => (acc ++ l, (none : Option Empty))) [] content).1

/-- Segments chosen by the `fold` loop (the slices `content[..next_boundary]`
of each iteration), without the interleaved breaks. -/
def foldSegsLoopF : Nat → List Nat → List (List Nat)
  | 0, _ => []
  | fuel + 1, content =>
    if content = [] then []
    else
      let nb := next_boundary content (LIMIT - 1)
      content.take nb :: foldSegsLoopF fuel (content.drop nb)

/-- Loop segments at the canonical fuel (the content's byte length). -/
def foldSegsLoop (content : List Nat) : List (List Nat) :=
  foldSegsLoopF content.length content

/-- All segments written by `fold`: the first slice (boundary from the full
`LIMIT`) followed by the loop's segments. -/
def foldSegs (content : List Nat) : List (List Nat) :=
  let boundary := next_boundary content LIMIT
  content.take boundary :: foldSegsLoop (content.drop boundary)

/-- Reassemble the written byte stream from segments: the first segment,
then `LINE_BREAK ++ segment` for every further segment. -/
def renderSegs : List (List Nat) → List Nat
  | [] => []
  | s :: rest => s ++ (rest.map (fun x => LINE_BREAK ++ x)).flatten

/-- The physical lines of the folded output: the first segment, and every
continuation segment together with its inserted leading space. -/
def physicalLines (content : List Nat) : List (List Nat) :=
  match foldSegs content with
  | [] => []
  | s :: rest => s :: rest.map (fun x => 32 :: x)

/-- The sequence of `write_str` calls `fold` issues, in order: the first
segment, then alternating `LINE_BREAK` and segment writes. -/
def foldWrites (content : List Nat) : List (List Nat) :=
  match foldSegs content with
  | [] => []
  | s :: rest => s :: (rest.map (fun x => [LINE_BREAK, x])).flatten

/-- Run a list of planned writes against a sink, stopping at the first
failure (the behaviour of chained `write_str(..)?`). -/
def runWrites {σ E : Type} (w : σ → List Nat → σ × Option E) :
    σ → List (List Nat) → σ × Option E
  | s, [] => (s, none)
  | s, l :: ls =>
    match w s l with
    | (s1, some e) => (s1, some e)
    | (s1, none) => runWrites w s1 ls

/-- A sink that records every write it receives and fails on the k-th call
(0-indexed) exactly when `outcome k = some e`. -/
def logSink {E : Type} (outcome : Nat → Option E) (log : List (List Nat))
    (l : List Nat) : List (List Nat) × Option E :=
  (log ++ [l], outcome (log.length))

/-- `pub fn size(len: usize) -> usize { len + ((len - 2) / (LIMIT - 1)) * 3 }`
with release-build (wrapping) `usize` arithmetic: `len - 2` wraps modulo
2^64 when `len < 2`. -/
def size (len : Nat) : Nat :=
  (len + ((len + USIZE - 2) % USIZE / (LIMIT - 1)) * 3) % USIZE

/-- The same function under debug-build semantics, where subtraction
underflow and arithmetic overflow panic (`none`). -/
def sizeChecked (len : Nat) : Option Nat :=
  if len < 2 then none
  else
    let q := (len - 2) / (LIMIT - 1)
    if q * 3 < USIZE then
      if len + q * 3 < USIZE then some (len + q * 3) else none
    else none

/-- Standard UTF-8 encoding of a character (1 to 4 bytes). -/
def utf8Encode (c : Char) : List Nat :=
  let v := c.toNat
  if v < 128 then [v]
  else if v < 2048 then [192 + v / 64, 128 + v % 64]
  else if v < 65536 then [224 + v / 4096, 128 + v / 64 % 64, 128 + v % 64]
  else [240 + v / 262144, 128 + v / 4096 % 64, 128 + v / 64 % 64, 128 + v % 64]

/-- UTF-8 byte sequence of a character list (a Rust `&str`). -/
def encodeList (cs : List Char) : List Nat := (cs.map utf8Encode).flatten

/-! ### List indexing helpers -/

lemma getD_take_eq : ∀ (l : List Nat) (n j : Nat), j < n → (l.take n).getD j 0 = l.getD j 0 := by
  intro l
  induction l with
  | nil => intro n j _; simp
  | cons b bs ih =>
    intro n j hj
    cases n with
    | zero => omega
    | succ n =>
      cases j with
      | zero => simp
      | succ j => simpa using ih n j (by omega)

lemma getD_append_lt : ∀ (l₁ l₂ : List Nat) (j : Nat), j < l₁.length →
    (l₁ ++ l₂).getD j 0 = l₁.getD j 0 := by
  intro l₁
  induction l₁ with
  | nil => intro l₂ j hj; simp at hj
  | cons b bs ih =>
    intro l₂ j hj
    cases j with
    | zero => simp
    | succ j => simpa using ih l₂ j (by simpa using hj)

lemma getD_append_ge : ∀ (l₁ l₂ : List Nat) (j : Nat), l₁.length ≤ j →
    (l₁ ++ l₂).getD j 0 = l₂.getD (j - l₁.length) 0 := by
  intro l₁
  induction l₁ with
  | nil => intro l₂ j _; simp
  | cons b bs ih =>
    intro l₂ j hj
    cases j with
    | zero => simp at hj
    | succ j => simpa [Nat.succ_sub_succ] using ih l₂ j (by simpa using hj)

lemma getD_mem : ∀ (l : List Nat) (j : Nat), j < l.length → l.getD j 0 ∈ l := by
  intro l
  induction l with
  | nil => intro j hj; simp at hj
  | cons b bs ih =>
    intro j hj
    cases j with
    | zero => simp
    | succ j => exact List.mem_cons_of_mem _ (ih j (by simpa using hj))

lemma take_succ_of_drop {α : Type} :
    ∀ (l : List α) (n : Nat) (c : α) (t : List α), l.drop n = c :: t →
      l.take (n + 1) = l.take n ++ [c] := by
  intro l
  induction l with
  | nil => intro n c t h; simp at h
  | cons x xs ih =>
    intro n c t h
    cases n with
    | zero =>
      simp only [List.drop_zero] at h
      cases h
      simp
    | succ n =>
      simp only [List.drop_succ_cons] at h
      simp [ih n c t h]

/-! ### Characterisation of `rposition` -/

lemma rposition_eq_none (p : Nat → Bool) :
    ∀ l : List Nat, rposition p l = none ↔ ∀ j, j < l.length → p (l.getD j 0) = false := by
  intro l
  induction l with
  | nil => simp [rposition]
  | cons b bs ih =>
    cases hbs : rposition p bs with
    | some i =>
      simp only [rposition, hbs]
      constructor
      · intro h; exact absurd h (by simp)
      · intro hall
        have hnone : rposition p bs = none :=
          ih.mpr (fun j hj => by simpa using hall (j + 1) (by simpa using hj))
        rw [hbs] at hnone
        exact absurd hnone (by simp)
    | none =>
      simp only [rposition, hbs]
      by_cases hb : p b = true
      · simp only [hb, if_true]
        constructor
        · intro h; exact absurd h (by simp)
        · intro hall; exact absurd (hall 0 (by simp)) (by simp [hb])
      · have hb' : p b = false := by revert hb; cases p b <;> simp
        simp only [hb', Bool.false_eq_true, if_false]
        constructor
        · intro _ j hj
          cases j with
          | zero => simpa using hb'
          | succ j => simpa using (ih.mp hbs) j (by simpa using hj)
        · intro _; trivial

lemma rposition_eq_some (p : Nat → Bool) :
    ∀ (l : List Nat) (k : Nat), rposition p l = some k →
      k < l.length ∧ p (l.getD k 0) = true ∧
      ∀ j, k < j → j < l.length → p (l.getD j 0) = false := by
  intro l
  induction l with
  | nil => intro k h; simp [rposition] at h
  | cons b bs ih =>
    intro k h
    cases hbs : rposition p bs with
    | some i =>
      simp only [rposition, hbs, Option.some.injEq] at h
      obtain ⟨h1, h2, h3⟩ := ih i hbs
      subst h
      refine ⟨by simpa using h1, by simpa using h2, ?_⟩
      intro j hj hjl
      cases j with
      | zero => omega
      | succ j => simpa using h3 j (by omega) (by simpa using hjl)
    | none =>
      simp only [rposition, hbs] at h
      by_cases hb : p b = true
      · simp only [hb, if_true, Option.some.injEq] at h
        subst h
        refine ⟨by simp, by simpa using hb, ?_⟩
        intro j hj hjl
        cases j with
        | zero => omega
        | succ j => simpa using ((rposition_eq_none p bs).mp hbs) j (by simpa using hjl)
      · have hb' : p b = false := by revert hb; cases p b <;> simp
        simp [hb'] at h

lemma rposition_intro (p : Nat → Bool) :
    ∀ (l : List Nat) (k : Nat), k < l.length → p (l.getD k 0) = true →
      (∀ j, k < j → j < l.length → p (l.getD j 0) = false) →
      rposition p l = some k := by
  intro l
  induction l with
  | nil => intro k hk _ _; simp at hk
  | cons b bs ih =>
    intro k hk hp hmax
    cases k with
    | zero =>
      have hnone : rposition p bs = none :=
        (rposition_eq_none p bs).mpr
          (fun j hj => by simpa using hmax (j + 1) (by omega) (by simpa using hj))
      simp only [List.getD_cons_zero] at hp
      simp [rposition, hnone, hp]
    | succ k =>
      have hbs : rposition p bs = some k :=
        ih k (by simpa using hk) (by simpa using hp)
          (fun j hj hjl => by simpa using hmax (j + 1) (by omega) (by simpa using hjl))
      simp [rposition, hbs]

/-! ### Basic facts about `next_boundary` -/

lemma next_boundary_of_le (input : List Nat) (limit : Nat) (h : input.length ≤ limit) :
    next_boundary input limit = input.length := by
  unfold next_boundary
  rw [if_pos h]

lemma next_boundary_pos (input : List Nat) (limit : Nat) (h : input ≠ []) :
    0 < next_boundary input limit := by
  have hlen : 0 < input.length := List.length_pos.mpr h
  unfold next_boundary
  split
  · exact hlen
  · split
    · exact hlen
    · exact hlen
    · omega

lemma next_boundary_ascii (input : List Nat) (limit : Nat)
    (hascii : ∀ b ∈ input, b < 128) (hlim : 1 ≤ limit) :
    next_boundary input limit = min limit input.length := by
  by_cases hle : input.length ≤ limit
  · rw [next_boundary_of_le _ _ hle, Nat.min_eq_right hle]
  · have hlt : limit < input.length := by omega
    have htake : (input.take (limit + 1)).length = limit + 1 := by
      simp [List.length_take]; omega
    have hsome : rposition isCharStart (input.take (limit + 1)) = some limit := by
      apply rposition_intro
      · rw [htake]; omega
      · rw [getD_take_eq _ _ _ (by omega)]
        have hm : input.getD limit 0 ∈ input := getD_mem _ _ hlt
        have h128 := hascii _ hm
        unfold isCharStart
        simp only [decide_eq_true_eq]
        omega
      · intro j hj hjl; rw [htake] at hjl; omega
    obtain ⟨m, rfl⟩ : ∃ m, limit = m + 1 := ⟨limit - 1, by omega⟩
    have hres : next_boundary input (m + 1) = m + 1 := by
      unfold next_boundary
      rw [if_neg hle, hsome]
    rw [hres, Nat.min_eq_left (by omega)]

/-! ### UTF-8 structure lemmas -/

lemma utf8Encode_length_pos (c : Char) : 0 < (utf8Encode c).length := by
  unfold utf8Encode
  dsimp only
  split_ifs <;> simp

lemma utf8Encode_length_le (c : Char) : (utf8Encode c).length ≤ 4 := by
  unfold utf8Encode
  dsimp only
  split_ifs <;> simp

lemma utf8Encode_head (c : Char) : isCharStart ((utf8Encode c).getD 0 0) = true := by
  unfold utf8Encode isCharStart
  dsimp only
  split_ifs <;> simp only [List.getD_cons_zero, decide_eq_true_eq] <;> omega

lemma utf8Encode_cont (c : Char) :
    ∀ j, 0 < j → j < (utf8Encode c).length → isCharStart ((utf8Encode c).getD j 0) = false := by
  intro j hj0 hjl
  unfold utf8Encode at hjl ⊢
  unfold isCharStart
  dsimp only at hjl ⊢
  split_ifs at hjl ⊢
  · simp only [List.length_singleton] at hjl; omega
  · simp only [List.length_cons, List.length_nil] at hjl
    have hj : j = 1 := by omega
    subst hj
    simp only [List.getD_cons_succ, List.getD_cons_zero, decide_eq_false_iff_not]
    omega
  · simp only [List.length_cons, List.length_nil] at hjl
    have hj : j = 1 ∨ j = 2 := by omega
    rcases hj with hj | hj <;> subst hj <;>
      simp only [List.getD_cons_succ, List.getD_cons_zero, decide_eq_false_iff_not] <;> omega
  · simp only [List.length_cons, List.length_nil] at hjl
    have hj : j = 1 ∨ j = 2 ∨ j = 3 := by omega
    rcases hj with hj | hj | hj <;> subst hj <;>
      simp only [List.getD_cons_succ, List.getD_cons_zero, decide_eq_false_iff_not] <;> omega

lemma encodeList_cons (c : Char) (cs : List Char) :
    encodeList (c :: cs) = utf8Encode c ++ encodeList cs := by
  simp [encodeList]

lemma encodeList_append (xs ys : List Char) :
    encodeList (xs ++ ys) = encodeList xs ++ encodeList ys := by
  simp [encodeList]

lemma encodeList_length_pos (cs : List Char) (h : cs ≠ []) : 0 < (encodeList cs).length := by
  cases cs with
  | nil => exact absurd rfl h
  | cons c cs =>
    rw [encodeList_cons]
    have := utf8Encode_length_pos c
    simp only [List.length_append]
    omega

/-! ### `next_boundary` lands on character boundaries

For UTF-8 encoded input and a window of at least 4 bytes (so that the
`Some(0) | None` fallback cannot fire), `next_boundary` returns the byte
length of the longest character prefix whose encoding fits in the window. -/

lemma next_boundary_encode_step (cs : List Char) (limit : Nat) (h4 : 4 ≤ limit)
    (hlt : limit < (encodeList cs).length) :
    ∃ j, 0 < j ∧ j < cs.length ∧
      next_boundary (encodeList cs) limit = (encodeList (cs.take j)).length ∧
      0 < (encodeList (cs.take j)).length ∧
      (encodeList (cs.take j)).length ≤ limit ∧
      (encodeList cs).take ((encodeList (cs.take j)).length) = encodeList (cs.take j) ∧
      (encodeList cs).drop ((encodeList (cs.take j)).length) = encodeList (cs.drop j) := by
  have hcs : cs ≠ [] := by
    intro h; subst h
    simp [encodeList] at hlt
  set j0 := Nat.findGreatest (fun j => (encodeList (cs.take j)).length ≤ limit) cs.length
    with hj0def
  have hcs1 : 1 ≤ cs.length := by
    cases cs with
    | nil => exact absurd rfl hcs
    | cons c cs => simp
  have hP1 : (encodeList (cs.take 1)).length ≤ limit := by
    cases cs with
    | nil => exact absurd rfl hcs
    | cons c cs =>
      have h1 : (c :: cs).take 1 = [c] := by simp
      have h2 : encodeList [c] = utf8Encode c := by simp [encodeList]
      rw [h1, h2]
      exact le_trans (utf8Encode_length_le c) h4
  have hj0_ge : 1 ≤ j0 :=
    Nat.le_findGreatest (P := fun j => (encodeList (cs.take j)).length ≤ limit) hcs1 hP1
  have hj0_le : j0 ≤ cs.length :=
    Nat.findGreatest_le (P := fun j => (encodeList (cs.take j)).length ≤ limit) cs.length
  have hPj0 : (encodeList (cs.take j0)).length ≤ limit :=
    Nat.findGreatest_spec (P := fun j => (encodeList (cs.take j)).length ≤ limit) hcs1 hP1
  have hj0_lt : j0 < cs.length := by
    rcases Nat.lt_or_ge j0 cs.length with h | h
    · exact h
    · exfalso
      have he : j0 = cs.length := le_antisymm hj0_le h
      rw [he, List.take_length] at hPj0
      omega
  have hnP : ¬ (encodeList (cs.take (j0 + 1))).length ≤ limit :=
    Nat.findGreatest_is_greatest
      (P := fun j => (encodeList (cs.take j)).length ≤ limit)
      (n := cs.length) (k := j0 + 1) (by omega) (by omega)
  have hsplit : encodeList cs = encodeList (cs.take j0) ++ encodeList (cs.drop j0) := by
    rw [← encodeList_append, List.take_append_drop]
  obtain ⟨c1, rest, hdrop⟩ : ∃ c t, cs.drop j0 = c :: t := by
    cases hd : cs.drop j0 with
    | nil =>
      exfalso
      have hl : (cs.drop j0).length = cs.length - j0 := List.length_drop _ _
      rw [hd] at hl
      simp at hl
      omega
    | cons c t => exact ⟨c, t, rfl⟩
  have htakesucc : cs.take (j0 + 1) = cs.take j0 ++ [c1] := take_succ_of_drop cs j0 c1 rest hdrop
  set A := encodeList (cs.take j0) with hA
  set k0 := A.length with hk0
  have hk0pos : 0 < k0 := by
    apply encodeList_length_pos
    cases cs with
    | nil => exact absurd rfl hcs
    | cons c cs' =>
      cases hj : j0 with
      | zero => omega
      | succ j => simp [List.take_succ_cons]
  have hlen1 : limit < k0 + (utf8Encode c1).length := by
    have he : encodeList (cs.take (j0 + 1)) = A ++ utf8Encode c1 := by
      rw [htakesucc, encodeList_append]
      congr 1
      simp [encodeList]
    rw [he] at hnP
    simp only [List.length_append] at hnP
    omega
  have hB : encodeList (cs.drop j0) = utf8Encode c1 ++ encodeList rest := by
    rw [hdrop, encodeList_cons]
  have hb_start : isCharStart ((encodeList cs).getD k0 0) = true := by
    rw [hsplit, getD_append_ge _ _ _ (le_refl _), Nat.sub_self, hB,
      getD_append_lt _ _ _ (utf8Encode_length_pos c1)]
    exact utf8Encode_head c1
  have hb_cont : ∀ i, k0 < i → i ≤ limit → isCharStart ((encodeList cs).getD i 0) = false := by
    intro i hi1 hi2
    have hi3 : i - k0 < (utf8Encode c1).length := by omega
    rw [hsplit, getD_append_ge _ _ _ (by omega), hB, getD_append_lt _ _ _ (by omega)]
    exact utf8Encode_cont c1 (i - k0) (by omega) hi3
  have htake_len : ((encodeList cs).take (limit + 1)).length = limit + 1 := by
    simp only [List.length_take]
    omega
  have hrpos : rposition isCharStart ((encodeList cs).take (limit + 1)) = some k0 := by
    apply rposition_intro
    · rw [htake_len]; omega
    · rw [getD_take_eq _ _ _ (by omega)]; exact hb_start
    · intro i hi hil
      rw [htake_len] at hil
      rw [getD_take_eq _ _ _ (by omega)]
      exact hb_cont i hi (by omega)
  have hnb : next_boundary (encodeList cs) limit = k0 := by
    obtain ⟨m, hm⟩ : ∃ m, k0 = m + 1 := ⟨k0 - 1, by omega⟩
    unfold next_boundary
    rw [if_neg (by omega), hrpos, hm]
  refine ⟨j0, by omega, hj0_lt, hnb, hk0pos, hPj0, ?_, ?_⟩
  · rw [hsplit]
    exact List.take_left A _
  · rw [hsplit]
    exact List.drop_left A _

/-! ### Fuel lemmas for the fold loop -/

lemma foldSegsLoopF_nil (fuel : Nat) : foldSegsLoopF fuel [] = [] := by
  cases fuel <;> simp [foldSegsLoopF]

lemma foldLoopM_nil {σ E : Type} (w : σ → List Nat → σ × Option E) (fuel : Nat) (s : σ) :
    foldLoopM w fuel s [] = (s, none) := by
  cases fuel <;> simp [foldLoopM]

lemma length_le_zero_nil {α : Type} (c : List α) (hc : c.length ≤ 0) : c = [] := by
  cases c with
  | nil => rfl
  | cons b bs => simp at hc

lemma drop_nb_length_le (c : List Nat) (fuel : Nat) (hnil : c ≠ [])
    (hc : c.length ≤ fuel + 1) :
    (c.drop (next_boundary c (LIMIT - 1))).length ≤ fuel := by
  have hnb : 0 < next_boundary c (LIMIT - 1) := next_boundary_pos c _ hnil
  have hcpos : 0 < c.length := List.length_pos.mpr hnil
  simp only [List.length_drop]
  omega

lemma foldSegsLoopF_flatten : ∀ (fuel : Nat) (c : List Nat), c.length ≤ fuel →
    (foldSegsLoopF fuel c).flatten = c := by
  intro fuel
  induction fuel with
  | zero =>
    intro c hc
    rw [length_le_zero_nil c hc]
    simp [foldSegsLoopF]
  | succ fuel ih =>
    intro c hc
    by_cases hnil : c = []
    · subst hnil; simp [foldSegsLoopF]
    · unfold foldSegsLoopF
      rw [if_neg hnil]
      dsimp only
      rw [List.flatten_cons, ih _ (drop_nb_length_le c fuel hnil hc), List.take_append_drop]

lemma foldLoopM_eq_runWrites {σ E : Type} (w : σ → List Nat → σ × Option E) :
    ∀ (fuel : Nat) (s : σ) (c : List Nat), c.length ≤ fuel →
      foldLoopM w fuel s c =
        runWrites w s (((foldSegsLoopF fuel c).map (fun x => [LINE_BREAK, x])).flatten) := by
  intro fuel
  induction fuel with
  | zero =>
    intro s c hc
    rw [length_le_zero_nil c hc]
    simp [foldLoopM, foldSegsLoopF, runWrites]
  | succ fuel ih =>
    intro s c hc
    by_cases hnil : c = []
    · subst hnil; simp [foldLoopM, foldSegsLoopF, runWrites]
    · unfold foldLoopM foldSegsLoopF
      rw [if_neg hnil, if_neg hnil]
      dsimp only
      simp only [List.map_cons, List.flatten_cons, List.cons_append, List.nil_append]
      cases hw1 : w s LINE_BREAK with
      | mk s1 r1 =>
        cases r1 with
        | some e => simp [runWrites, hw1]
        | none =>
          cases hw2 : w s1 (c.take (next_boundary c (LIMIT - 1))) with
          | mk s2 r2 =>
            cases r2 with
            | some e => simp [runWrites, hw1, hw2]
            | none =>
              simp only [runWrites, hw1, hw2]
              exact ih s2 _ (drop_nb_length_le c fuel hnil hc)

lemma foldM_eq_runWrites {σ E : Type} (w : σ → List Nat → σ × Option E) (s : σ)
    (content : List Nat) :
    foldM w s content = runWrites w s (foldWrites content) := by
  unfold foldM foldWrites foldSegs foldSegsLoop
  dsimp only
  cases hw : w s (content.take (next_boundary content LIMIT)) with
  | mk s1 r1 =>
    cases r1 with
    | some e => simp [runWrites, hw]
    | none =>
      simp only [runWrites, hw]
      exact foldLoopM_eq_runWrites w _ s1 _ (le_refl _)

lemma runWrites_acc : ∀ (plan : List (List Nat)) (s : List Nat),
    runWrites (fun acc l => (acc ++ l, (none : Option Empty))) s plan
      = (s ++ plan.flatten, none) := by
  intro plan
  induction plan with
  | nil => intro s; simp [runWrites]
  | cons x ls ih =>
    intro s
    simp [runWrites, ih, List.append_assoc]

lemma pairs_flatten (L : List (List Nat)) :
    ((L.map (fun x => [LINE_BREAK, x])).flatten).flatten
      = (L.map (fun x => LINE_BREAK ++ x)).flatten := by
  induction L with
  | nil => simp
  | cons x ls ih => simp [ih]

lemma fold_eq_renderSegs (content : List Nat) :
    fold content = renderSegs (foldSegs content) := by
  unfold fold
  rw [foldM_eq_runWrites]
  unfold foldWrites foldSegs renderSegs
  dsimp only
  rw [runWrites_acc]
  simp [pairs_flatten]

/-! ### Folding a UTF-8 string splits it along whole characters -/

lemma foldSegsLoopF_partition : ∀ (fuel : Nat) (cs : List Char),
    (encodeList cs).length ≤ fuel → cs ≠ [] →
    ∃ parts : List (List Char), parts ≠ [] ∧ parts.flatten = cs ∧
      foldSegsLoopF fuel (encodeList cs) = parts.map encodeList ∧
      ∀ p ∈ parts, (encodeList p).length ≤ LIMIT - 1 := by
  intro fuel
  induction fuel with
  | zero =>
    intro cs hlen hne
    have := encodeList_length_pos cs hne
    omega
  | succ fuel ih =>
    intro cs hlen hne
    have hepos : 0 < (encodeList cs).length := encodeList_length_pos cs hne
    have hene : encodeList cs ≠ [] := by
      intro h; rw [h] at hepos; simp at hepos
    by_cases hsmall : (encodeList cs).length ≤ LIMIT - 1
    · have hnb : next_boundary (encodeList cs) (LIMIT - 1) = (encodeList cs).length :=
        next_boundary_of_le _ _ hsmall
      refine ⟨[cs], by simp, by simp, ?_, ?_⟩
      · unfold foldSegsLoopF
        rw [if_neg hene]
        dsimp only
        rw [hnb, List.take_length, List.drop_length, foldSegsLoopF_nil]
        simp
      · intro p hp
        simp at hp; subst hp; exact hsmall
    · have hlt : LIMIT - 1 < (encodeList cs).length := by omega
      obtain ⟨j, hj0, hjlt, hnb, hkpos, hkle, htk, hdk⟩ :=
        next_boundary_encode_step cs (LIMIT - 1) (by norm_num [LIMIT]) hlt
      have hdne : cs.drop j ≠ [] := by
        have hl : (cs.drop j).length = cs.length - j := List.length_drop _ _
        intro h; rw [h] at hl; simp at hl; omega
      have hsum : (encodeList cs).length
          = (encodeList (cs.take j)).length + (encodeList (cs.drop j)).length := by
        conv_lhs => rw [← List.take_append_drop j cs]
        rw [encodeList_append, List.length_append]
      have hdlen : (encodeList (cs.drop j)).length ≤ fuel := by omega
      obtain ⟨parts, hpne, hpfl, hpeq, hpbound⟩ := ih (cs.drop j) hdlen hdne
      refine ⟨cs.take j :: parts, by simp, ?_, ?_, ?_⟩
      · simp only [List.flatten_cons, hpfl]
        exact List.take_append_drop j cs
      · unfold foldSegsLoopF
        rw [if_neg hene]
        dsimp only
        rw [hnb, htk, hdk, hpeq]
        simp
      · intro p hp
        rcases List.mem_cons.mp hp with h | h
        · subst h; exact hkle
        · exact hpbound p h

lemma foldSegs_structure (cs : List Char) :
    ∃ (p0 : List Char) (rest : List (List Char)),
      p0 ++ rest.flatten = cs ∧
      foldSegs (encodeList cs) = encodeList p0 :: rest.map encodeList ∧
      (encodeList p0).length ≤ LIMIT ∧
      ∀ p ∈ rest, (encodeList p).length ≤ LIMIT - 1 := by
  by_cases hsmall : (encodeList cs).length ≤ LIMIT
  · refine ⟨cs, [], by simp, ?_, hsmall, by simp⟩
    unfold foldSegs foldSegsLoop
    dsimp only
    rw [next_boundary_of_le _ _ hsmall, List.take_length, List.drop_length]
    simp [foldSegsLoopF_nil]
  · have hlt : LIMIT < (encodeList cs).length := by omega
    obtain ⟨j, hj0, hjlt, hnb, hkpos, hkle, htk, hdk⟩ :=
      next_boundary_encode_step cs LIMIT (by norm_num [LIMIT]) hlt
    have hdne : cs.drop j ≠ [] := by
      have hl : (cs.drop j).length = cs.length - j := List.length_drop _ _
      intro h; rw [h] at hl; simp at hl; omega
    obtain ⟨parts, hpne, hpfl, hpeq, hpbound⟩ :=
      foldSegsLoopF_partition (encodeList (cs.drop j)).length (cs.drop j) (le_refl _) hdne
    refine ⟨cs.take j, parts, ?_, ?_, hkle, hpbound⟩
    · rw [hpfl]; exact List.take_append_drop j cs
    · unfold foldSegs foldSegsLoop
      dsimp only
      rw [hnb, htk, hdk, hpeq]

/-! ### Output length on all-ASCII content -/

lemma ascii_drop (c : List Nat) (n : Nat) (h : ∀ b ∈ c, b < 128) : ∀ b ∈ c.drop n, b < 128 :=
  fun b hb => h b (List.mem_of_mem_drop hb)

lemma renderSegs_length (s : List Nat) (rest : List (List Nat)) :
    (renderSegs (s :: rest)).length = s.length + (rest.map (fun x => 3 + x.length)).sum := by
  simp [renderSegs, List.length_flatten, List.map_map, Function.comp_def, LINE_BREAK]
  omega

lemma ascii_loop_sum : ∀ (fuel : Nat) (c : List Nat), c.length ≤ fuel →
    (∀ b ∈ c, b < 128) →
    ((foldSegsLoopF fuel c).map (fun s => 3 + s.length)).sum
      = if c.length = 0 then 0 else c.length + 3 * (1 + (c.length - 1) / 74) := by
  intro fuel
  induction fuel with
  | zero =>
    intro c hc _
    rw [length_le_zero_nil c hc]
    simp [foldSegsLoopF]
  | succ fuel ih =>
    intro c hc hascii
    by_cases hnil : c = []
    · subst hnil; simp [foldSegsLoopF]
    · have hcpos : 0 < c.length := List.length_pos.mpr hnil
      rw [if_neg (show ¬c.length = 0 by omega)]
      unfold foldSegsLoopF
      rw [if_neg hnil]
      dsimp only
      have hnb : next_boundary c (LIMIT - 1) = min 74 c.length := by
        have h := next_boundary_ascii c (LIMIT - 1) hascii (by norm_num [LIMIT])
        simpa [LIMIT] using h
      by_cases hsmall : c.length ≤ 74
      · have hnb1 : next_boundary c (LIMIT - 1) = c.length := by rw [hnb]; omega
        rw [hnb1, List.take_length, List.drop_length, foldSegsLoopF_nil]
        simp only [List.map_cons, List.map_nil, List.sum_cons, List.sum_nil]
        have hdz : (c.length - 1) / 74 = 0 := Nat.div_eq_of_lt (by omega)
        rw [hdz]
        omega
      · have hnb1 : next_boundary c (LIMIT - 1) = 74 := by rw [hnb]; omega
        rw [hnb1]
        have hdl : (c.drop 74).length = c.length - 74 := List.length_drop _ _
        have hih := ih (c.drop 74) (by rw [hdl]; omega) (ascii_drop c 74 hascii)
        simp only [List.map_cons, List.sum_cons]
        rw [hih, hdl, if_neg (show ¬(c.length - 74 = 0) by omega)]
        have htl : (c.take 74).length = 74 := by
          simp only [List.length_take]
          omega
        rw [htl]
        omega

lemma fold_length_ascii (content : List Nat) (hascii : ∀ b ∈ content, b < 128) :
    (fold content).length =
      if content.length ≤ 75 then content.length
      else content.length + 3 + 3 * ((content.length - 76) / 74) := by
  rw [fold_eq_renderSegs]
  have hb : next_boundary content LIMIT = min 75 content.length := by
    have h := next_boundary_ascii content LIMIT hascii (by norm_num [LIMIT])
    simpa [LIMIT] using h
  by_cases hle : content.length ≤ 75
  · rw [if_pos hle]
    have hb1 : next_boundary content LIMIT = content.length := by rw [hb]; omega
    unfold foldSegs foldSegsLoop
    dsimp only
    rw [hb1, List.take_length, List.drop_length]
    simp [foldSegsLoopF_nil, renderSegs]
  · rw [if_neg hle]
    have hb1 : next_boundary content LIMIT = 75 := by rw [hb]; omega
    unfold foldSegs foldSegsLoop
    dsimp only
    rw [hb1, renderSegs_length]
    have hdl : (content.drop 75).length = content.length - 75 := List.length_drop _ _
    have hsum := ascii_loop_sum (content.drop 75).length (content.drop 75) (le_refl _)
      (ascii_drop content 75 hascii)
    rw [hsum, hdl, if_neg (show ¬(content.length - 75 = 0) by omega)]
    have htl : (content.take 75).length = 75 := by
      simp only [List.length_take]
      omega
    rw [htl]
    omega

/-! ### Behaviour of the planned writes against a failing sink -/

lemma runWrites_logSink_ok {E : Type} (outcome : Nat → Option E) :
    ∀ (plan log : List (List Nat)),
      (∀ k, log.length ≤ k → k < log.length + plan.length → outcome k = none) →
      runWrites (logSink outcome) log plan = (log ++ plan, none) := by
  intro plan
  induction plan with
  | nil => intro log _; simp [runWrites]
  | cons x ls ih =>
    intro log hall
    have h0 : outcome log.length = none :=
      hall log.length (le_refl _) (by simp)
    simp only [runWrites, logSink, h0]
    rw [ih (log ++ [x]) ?_]
    · simp
    · intro k hk1 hk2
      simp only [List.length_append, List.length_singleton] at hk1 hk2
      exact hall k (by omega) (by simp only [List.length_cons]; omega)

lemma runWrites_logSink_err {E : Type} (outcome : Nat → Option E) :
    ∀ (plan log : List (List Nat)) (j : Nat) (e : E), j < plan.length →
      (∀ k, log.length ≤ k → k < log.length + j → outcome k = none) →
      outcome (log.length + j) = some e →
      runWrites (logSink outcome) log plan = (log ++ plan.take (j + 1), some e) := by
  intro plan
  induction plan with
  | nil => intro log j e hj _ _; simp at hj
  | cons x ls ih =>
    intro log j e hj hall hfail
    cases j with
    | zero =>
      simp only [Nat.add_zero] at hfail
      simp only [runWrites, logSink, hfail]
      simp
    | succ j =>
      have h0 : outcome log.length = none := hall log.length (le_refl _) (by omega)
      simp only [runWrites, logSink, h0]
      rw [ih (log ++ [x]) j e (by simp only [List.length_cons] at hj; omega) ?_ ?_]
      · simp [List.take_succ_cons]
      · intro k hk1 hk2
        simp only [List.length_append, List.length_singleton] at hk1 hk2
        exact hall k (by omega) (by omega)
      · simp only [List.length_append, List.length_singleton]
        rw [show log.length + 1 + j = log.length + (j + 1) by omega]
        exact hfail

/-! ### Claim theorems -/

set_option maxRecDepth 100000

/-- C1 (counterexample): the claim fails for multi-byte content.  A 222-byte
logical line of 74 three-byte characters is folded into segments of 75, 72,
72 and 3 bytes — three inserted breaks, 231 bytes written — while
`size 222 = 228` accounts for only two breaks. -/
theorem size_mismatch_multibyte :
    (encodeList (List.replicate 74 '老')).length = 222 ∧
    (fold (encodeList (List.replicate 74 '老'))).length = 231 ∧
    size 222 = 228 ∧
    (fold (encodeList (List.replicate 74 '老'))).length
      ≠ size (encodeList (List.replicate 74 '老')).length := by
  decide

/-- C1 (amended): for every logical line consisting of single-byte (ASCII)
characters, of byte length at least 2 (so the `len - 2` in `size` does not
underflow) and below 2^63 (no `usize` overflow), `size` of the length equals
the exact number of bytes `fold` writes for that line. -/
theorem size_eq_fold_length_ascii (content : List Nat)
    (hascii : ∀ b ∈ content, b < 128) (h2 : 2 ≤ content.length)
    (hbound : content.length < 2 ^ 63) :
    (fold content).length = size content.length := by
  rw [fold_length_ascii content hascii]
  have hb : content.length < 9223372036854775808 := by
    have he : (2 : Nat) ^ 63 = 9223372036854775808 := by norm_num
    omega
  unfold size USIZE LIMIT
  rw [show (75 : Nat) - 1 = 74 from rfl]
  by_cases hle : content.length ≤ 75
  · rw [if_pos hle]
    omega
  · rw [if_neg hle]
    omega

theorem size_eq_fold_length_ascii_witness :
    (fold (List.replicate 100 65)).length = size (List.replicate 100 65).length :=
  size_eq_fold_length_ascii (List.replicate 100 65) (by decide) (by decide) (by decide)

/-- C2: every physical line of the folded output — the first segment, and
each continuation segment together with its inserted leading space — has
byte length at most 75.  Under UTF-8 every character occupies at most
4 < 75 bytes, so the oversized-single-character exception of the claim can
never arise and the bound holds unconditionally. -/
theorem physicalLines_length_le (cs : List Char) :
    ∀ l ∈ physicalLines (encodeList cs), l.length ≤ 75 := by
  obtain ⟨p0, rest, hjoin, hsegs, h0, hrest⟩ := foldSegs_structure cs
  intro l hl
  unfold physicalLines at hl
  rw [hsegs] at hl
  simp only [List.mem_cons, List.mem_map] at hl
  rcases hl with rfl | ⟨x, ⟨p, hp, rfl⟩, rfl⟩
  · simpa [LIMIT] using h0
  · have hb := hrest p hp
    unfold LIMIT at hb
    simp only [List.length_cons]
    omega

theorem physicalLines_length_le_witness : (encodeList ['a']).length ≤ 75 :=
  physicalLines_length_le ['a'] (encodeList ['a']) (by decide)

/-- C3: no break is inserted inside a multi-byte character: the segments
produced by `fold` are exactly the encodings of a partition of the input's
characters, so every boundary falls on a character start or the line end. -/
theorem foldSegs_char_aligned (cs : List Char) :
    ∃ parts : List (List Char), parts.flatten = cs ∧
      foldSegs (encodeList cs) = parts.map encodeList := by
  obtain ⟨p0, rest, hjoin, hsegs, h0, hrest⟩ := foldSegs_structure cs
  exact ⟨p0 :: rest, by simpa using hjoin, by simpa using hsegs⟩

/-- C4: folding is lossless: the output is exactly the segments interleaved
with the inserted `LINE_BREAK`s, and concatenating the segments (that is,
stripping every inserted break-plus-space sequence) reproduces the
original logical line. -/
theorem fold_lossless (content : List Nat) :
    (foldSegs content).flatten = content ∧
    fold content = renderSegs (foldSegs content) := by
  constructor
  · unfold foldSegs foldSegsLoop
    dsimp only
    rw [List.flatten_cons, foldSegsLoopF_flatten _ _ (le_refl _), List.take_append_drop]
  · exact fold_eq_renderSegs content

/-- C5: `next_boundary` returns the full length when the limit is at or
beyond the input length; otherwise it returns the rightmost offset at or
before the limit holding a non-continuation byte, unless that offset is 0
or no such offset exists, in which case it returns the full length. -/
theorem next_boundary_spec (input : List Nat) (limit : Nat) :
    (input.length ≤ limit → next_boundary input limit = input.length) ∧
    (limit < input.length →
      ((∀ j, 0 < j → j ≤ limit → isCharStart (input.getD j 0) = false) ∧
        next_boundary input limit = input.length) ∨
      (∃ k, 0 < k ∧ k ≤ limit ∧ isCharStart (input.getD k 0) = true ∧
        (∀ j, k < j → j ≤ limit → isCharStart (input.getD j 0) = false) ∧
        next_boundary input limit = k)) := by
  constructor
  · exact next_boundary_of_le input limit
  · intro hlt
    have htl : (input.take (limit + 1)).length = limit + 1 := by
      simp only [List.length_take]
      omega
    cases hr : rposition isCharStart (input.take (limit + 1)) with
    | none =>
      left
      have hall := (rposition_eq_none _ _).mp hr
      constructor
      · intro j hj0 hjle
        have h1 := hall j (by rw [htl]; omega)
        rwa [getD_take_eq _ _ _ (by omega)] at h1
      · unfold next_boundary
        rw [if_neg (by omega), hr]
    | some k =>
      obtain ⟨hk1, hk2, hk3⟩ := rposition_eq_some _ _ k hr
      rw [htl] at hk1
      rw [getD_take_eq _ _ _ (by omega)] at hk2
      cases k with
      | zero =>
        left
        constructor
        · intro j hj0 hjle
          have h1 := hk3 j (by omega) (by rw [htl]; omega)
          rwa [getD_take_eq _ _ _ (by omega)] at h1
        · unfold next_boundary
          rw [if_neg (by omega), hr]
      | succ k =>
        right
        refine ⟨k + 1, by omega, by omega, hk2, ?_, ?_⟩
        · intro j hj hjle
          have h1 := hk3 j (by omega) (by rw [htl]; omega)
          rwa [getD_take_eq _ _ _ (by omega)] at h1
        · unfold next_boundary
          rw [if_neg (by omega), hr]

theorem next_boundary_spec_witness :
    next_boundary [65, 66] 5 = 2 ∧ next_boundary [65, 66, 67] 1 = 1 := by
  constructor
  · exact (next_boundary_spec [65, 66] 5).1 (by decide)
  · have h := (next_boundary_spec [65, 66, 67] 1).2 (by decide)
    rcases h with ⟨hall, hnb⟩ | ⟨k, hk0, hkle, hstart, hmax, hnb⟩
    · exact absurd (hall 1 (by decide) (by decide)) (by decide)
    · have hk : k = 1 := by omega
      rw [hk] at hnb
      exact hnb

/-- C6: a logical line of at most 75 bytes is written unchanged as one
single segment, with zero inserted breaks; in particular the empty line
writes nothing. -/
theorem fold_short_id (content : List Nat) (h : content.length ≤ 75) :
    fold content = content ∧ foldSegs content = [content] := by
  have hsegs : foldSegs content = [content] := by
    unfold foldSegs foldSegsLoop
    dsimp only
    rw [next_boundary_of_le _ _ (by simpa [LIMIT] using h), List.take_length,
      List.drop_length]
    simp [foldSegsLoopF_nil]
  refine ⟨?_, hsegs⟩
  rw [fold_eq_renderSegs, hsegs]
  simp [renderSegs]

theorem fold_short_id_witness : fold [] = [] ∧ foldSegs [] = [[]] :=
  fold_short_id [] (by decide)

/-- C7: `fold` returns success when every sink write succeeds (performing
exactly the planned writes), and when the j-th write fails it returns that
sink failure verbatim and performs no write beyond the failing one. -/
theorem fold_error_propagation {E : Type} (outcome : Nat → Option E) (content : List Nat) :
    ((∀ k, k < (foldWrites content).length → outcome k = none) →
      foldM (logSink outcome) [] content = (foldWrites content, none)) ∧
    (∀ j e, j < (foldWrites content).length →
      (∀ k, k < j → outcome k = none) → outcome j = some e →
      foldM (logSink outcome) [] content = ((foldWrites content).take (j + 1), some e)) := by
  constructor
  · intro hall
    rw [foldM_eq_runWrites]
    have h := runWrites_logSink_ok outcome (foldWrites content) []
      (by intro k hk1 hk2; exact hall k (by simpa using hk2))
    simpa using h
  · intro j e hj hall hfail
    rw [foldM_eq_runWrites]
    have h := runWrites_logSink_err outcome (foldWrites content) [] j e hj
      (by intro k hk1 hk2; exact hall k (by simpa using hk2))
      (by simpa using hfail)
    simpa using h

theorem fold_error_propagation_witness :
    foldM (logSink (fun _ => (none : Option Nat))) [] (List.replicate 100 65)
      = (foldWrites (List.replicate 100 65), none) ∧
    foldM (logSink (fun k => if k = 1 then some 37 else (none : Option Nat))) []
        (List.replicate 100 65)
      = ((foldWrites (List.replicate 100 65)).take 2, some 37) := by
  constructor
  · exact (fold_error_propagation (fun _ => (none : Option Nat))
      (List.replicate 100 65)).1 (fun k _ => rfl)
  · exact (fold_error_propagation (fun k => if k = 1 then some 37 else (none : Option Nat))
      (List.replicate 100 65)).2 1 37 (by decide)
      (fun k hk => by
        have hk0 : k = 0 := by omega
        subst hk0
        rfl)
      (by decide)

/-- C8: `size 75 = 75`, `size 76 = 79`, `size 150 = 156`, and the extra
break count is `k + 1` throughout the block `[76 + 74k, 149 + 74k]`, so it
transitions at each multiple of `LIMIT - 1 = 74` past the first segment. -/
theorem size_boundary_values :
    size 75 = 75 ∧ size 76 = 79 ∧ size 150 = 156 ∧
    ∀ k len, 76 + 74 * k ≤ len → len ≤ 149 + 74 * k → len < 2 ^ 63 →
      size len = len + 3 * (k + 1) := by
  refine ⟨by decide, by decide, by decide, ?_⟩
  intro k len h1 h2 h3
  have hb : len < 9223372036854775808 := by
    have he : (2 : Nat) ^ 63 = 9223372036854775808 := by norm_num
    omega
  unfold size USIZE LIMIT
  rw [show (75 : Nat) - 1 = 74 from rfl]
  have hmod : (len + 18446744073709551616 - 2) % 18446744073709551616 = len - 2 := by
    omega
  rw [hmod]
  have hdiv : (len - 2) / 74 = k + 1 := by omega
  rw [hdiv]
  have hlt : len + (k + 1) * 3 < 18446744073709551616 := by omega
  rw [Nat.mod_eq_of_lt hlt]
  ring

theorem size_boundary_values_witness : size 100 = 100 + 3 * (0 + 1) :=
  size_boundary_values.2.2.2 0 100 (by decide) (by decide) (by decide)

/-- C9: `size` performs the unguarded `usize` subtraction `len - 2`: under
debug semantics it panics for `len < 2`, under release semantics it wraps
(concrete wrapped values for 0 and 1 below), and it agrees with the closed
form `len + ((len - 2) / 74) * 3` exactly when `len ≥ 2` (up to `usize`
overflow, excluded by `len < 2^63`). -/
theorem size_underflow :
    (∀ len, len < 2 → sizeChecked len = none) ∧
    (∀ len, 2 ≤ len → len < 2 ^ 63 →
      sizeChecked len = some (len + ((len - 2) / 74) * 3) ∧
      size len = len + ((len - 2) / 74) * 3) ∧
    size 0 = 747840975961198038 ∧ size 1 = 747840975961198039 := by
  refine ⟨?_, ?_, by decide, by decide⟩
  · intro len h
    unfold sizeChecked
    rw [if_pos h]
  · intro len h2 h3
    have hb : len < 9223372036854775808 := by
      have he : (2 : Nat) ^ 63 = 9223372036854775808 := by norm_num
      omega
    constructor
    · unfold sizeChecked USIZE LIMIT
      rw [if_neg (show ¬len < 2 by omega)]
      dsimp only
      split_ifs with ha hb2
      · simp only [Option.some.injEq]
      · rw [show (75 : Nat) - 1 = 74 from rfl] at hb2
        omega
      · rw [show (75 : Nat) - 1 = 74 from rfl] at ha
        omega
    · unfold size USIZE LIMIT
      rw [show (75 : Nat) - 1 = 74 from rfl]
      omega

theorem size_underflow_witness :
    sizeChecked 0 = none ∧ sizeChecked 100 = some (100 + ((100 - 2) / 74) * 3) ∧
    size 100 = 100 + ((100 - 2) / 74) * 3 := by
  refine ⟨size_underflow.1 0 (by decide), ?_, ?_⟩
  · exact (size_underflow.2.1 100 (by decide) (by decide)).1
  · exact (size_underflow.2.1 100 (by decide) (by decide)).2

/-- C10: `fold` terminates on every input: on non-empty remaining content
`next_boundary` returns at least 1 (for any limit), so the content left
after dropping the loop's boundary is strictly shorter. -/
theorem fold_terminates (content : List Nat) (limit : Nat) (h : content ≠ []) :
    1 ≤ next_boundary content limit ∧
    (content.drop (next_boundary content (LIMIT - 1))).length < content.length := by
  refine ⟨next_boundary_pos content limit h, ?_⟩
  have h1 := next_boundary_pos content (LIMIT - 1) h
  have h2 : 0 < content.length := List.length_pos.mpr h
  simp only [List.length_drop]
  omega

theorem fold_terminates_witness :
    1 ≤ next_boundary [65] 75 ∧
    (([65] : List Nat).drop (next_boundary [65] (LIMIT - 1))).length
      < ([65] : List Nat).length :=
  fold_terminates [65] 75 (by decide)

end Contentline
